import Mathlib

/-!
# Logging and instrumentation gates of `include/common/logging.h`

A shallow embedding of the call-site gates (`EVERY_N`, `START_PERIODIC` /
`END_PERIODIC` / `PERIODIC`), of the scoped timer `TimerBlock` and of the
logging front end (`logAtLevel`, `Log_Assert`, `Log_PAssert`).

Conventions of the embedding:
* a C `int` is an `Int` in `[INT_MIN, INT_MAX]`, an `int64_t` an `Int` in
  `[INT64_MIN, INT64_MAX]`; signed overflow and a remainder by zero are
  undefined in the source and are the result `none` here;
* the function-local `static` variables of a call site are a record that is
  passed in and returned;
* the wrapped operation is abstract: a call reports whether it ran it.
-/

namespace Logging

/-! ## Machine integers -/

/-- Largest value of a C `int` (32 bit). -/
def INT_MAX : Int := 2147483647

/-- Smallest value of a C `int` (32 bit). -/
def INT_MIN : Int := -2147483648

/-- Largest value of an `int64_t`. -/
def INT64_MAX : Int := 9223372036854775807

/-- Smallest value of an `int64_t`. -/
def INT64_MIN : Int := -9223372036854775808

/-- Conversion of the `uint64_t` returned by `rdtsc()` to `int64_t`, as done by
`int64_t now = rdtsc();` (two's complement reinterpretation). -/
def toInt64 (tsc : Nat) : Int :=
  if tsc % 2 ^ 64 < 2 ^ 63 then ((tsc % 2 ^ 64 : Nat) : Int)
  else ((tsc % 2 ^ 64 : Nat) : Int) - 2 ^ 64

/-! ## `EVERY_N` -/

/-- The statics of one `EVERY_N` call site: `static int COUNT`. -/
structure EveryNSite where
  COUNT : Int
  deriving DecidableEq, Repr

/-- A call site that has not run yet: `static int COUNT = 0;`. -/
def EveryNSite.fresh : EveryNSite := ⟨0⟩

/-- One pass through `EVERY_N(interval, operation)`:
`if (COUNT++ % interval == 0) { operation; }`.
The old value of `COUNT` is tested (`%` is C's truncating remainder) and
`COUNT` is incremented.  The result says whether `operation` ran.  `none` is
undefined behaviour: remainder by zero, `INT_MIN % -1`, or overflow of
`COUNT++`. -/
def EVERY_N (interval : Int) (s : EveryNSite) : Option (Bool × EveryNSite) :=
  if interval = 0 then none
  else if s.COUNT = INT_MIN ∧ interval = -1 then none
  else if s.COUNT = INT_MAX then none
  else some (decide (Int.tmod s.COUNT interval = 0), ⟨s.COUNT + 1⟩)

/-- Runs `m` successive passes of one `EVERY_N` call site, recording for each
pass whether the operation ran. -/
def everyNCalls (interval : Int) : Nat → EveryNSite → Option (List Bool × EveryNSite)
  | 0, s => some ([], s)
  | m + 1, s =>
    match EVERY_N interval s with
    | none => none
    | some (b, s') =>
      match everyNCalls interval m s' with
      | none => none
      | some (bs, s'') => some (b :: bs, s'')

/-- The record of which of the first `m` passes of a fresh call site ran the
operation (entry `k - 1` is call number `k`). -/
def everyNTrace (interval : Int) (m : Nat) : Option (List Bool) :=
  (everyNCalls interval m EveryNSite.fresh).map Prod.fst

/-- Number of times the operation ran during the first `m` passes of a fresh
call site. -/
def everyNExecutions (interval : Int) (m : Nat) : Option Nat :=
  (everyNTrace interval m).map (List.count true)

/-- Whether call number `k` (counted from 1) of a fresh call site ran the
operation; `none` when there is no such call or the run is undefined. -/
def everyNRan (interval : Int) (k : Nat) : Option Bool :=
  (everyNTrace interval k).bind (fun tr => tr[k - 1]?)

/-! ## `START_PERIODIC` / `END_PERIODIC` / `PERIODIC` -/

/-- The statics of one `PERIODIC` call site: `static int64_t last`,
`static int64_t cycles` and `static int COUNT`.  `cycles` has a dynamic
initialiser, which runs the first time control passes through the declaration;
it is `none` until then. -/
structure PeriodicSite where
  last : Int
  cycles : Option Int
  COUNT : Int
  deriving DecidableEq, Repr

/-- A call site that has not run yet: `last = 0`, `cycles` not yet
initialised, `COUNT = 0`. -/
def PeriodicSite.fresh : PeriodicSite := ⟨0, none, 0⟩

/-- One pass through `START_PERIODIC(interval) op; END_PERIODIC()`.
`thr` is the value `(int64_t)(interval * get_processor_frequency())` would have
if it were evaluated at this pass (it is used only when `cycles` is not yet
initialised), `tsc` is the reading of `rdtsc()`.  The result says whether the
block between the two halves ran.  `none` is undefined behaviour: overflow of
`++COUNT` or of the `int64_t` subtraction `now - last`. -/
def START_PERIODIC (thr : Int) (tsc : Nat) (s : PeriodicSite) : Option (Bool × PeriodicSite) :=
  let cycles := s.cycles.getD thr
  if s.COUNT = INT_MAX then none
  else
    let COUNT := s.COUNT + 1
    let now := toInt64 tsc
    if now - s.last < INT64_MIN ∨ INT64_MAX < now - s.last then none
    else if now - s.last > cycles then some (true, ⟨now, some cycles, 0⟩)
    else some (false, ⟨s.last, some cycles, COUNT⟩)

/-- `PERIODIC(interval, op)` is `START_PERIODIC(interval) op; END_PERIODIC()`. -/
def PERIODIC (thr : Int) (tsc : Nat) (s : PeriodicSite) : Option (Bool × PeriodicSite) :=
  START_PERIODIC thr tsc s

/-- Runs successive passes of one `PERIODIC` call site, one per element of
`calls` (the threshold expression's value and the cycle-counter reading at that
pass), recording for each pass whether the block ran. -/
def periodicCalls : List (Int × Nat) → PeriodicSite → Option (List Bool × PeriodicSite)
  | [], s => some ([], s)
  | (thr, tsc) :: rest, s =>
    match PERIODIC thr tsc s with
    | none => none
    | some (b, s') =>
      match periodicCalls rest s' with
      | none => none
      | some (bs, s'') => some (b :: bs, s'')

/-- The `now` values of the passes that ran the block, in order: `calls` are
the inputs of the passes and `ran` the record returned by `periodicCalls`. -/
def firedNows : List (Int × Nat) → List Bool → List Int
  | (_, tsc) :: cs, true :: bs => toInt64 tsc :: firedNows cs bs
  | _ :: cs, false :: bs => firedNows cs bs
  | _, _ => []

/-- The step of the periodic gate as the specification words it, on the state
`(last, cycles, COUNT)` with cycle reading `now`: if `now - last > cycles`
the block executes and the new state is `(now, cycles, 0)`; otherwise the block
is skipped and the new state is `(last, cycles, COUNT + 1)`. -/
def periodicSpecStep (now : Int) (st : Int × Int × Int) : Bool × (Int × Int × Int) :=
  if now - st.1 > st.2.1 then (true, (now, st.2.1, 0))
  else (false, (st.1, st.2.1, st.2.2 + 1))

/-- Number of passes made since, and not including, the most recent pass that
ran the block; the number of all passes if none ran it. -/
def passesSinceFire (ran : List Bool) : Nat :=
  (ran.reverse.takeWhile (fun b => !b)).length

/-- The `now` value of the most recent pass that ran the block, 0 if no pass
ran it. -/
def lastFiredNow (calls : List (Int × Nat)) (ran : List Bool) : Int :=
  (firedNows calls ran).getLast?.getD 0

/-! ## `TimerBlock` -/

/-- The object state of a `TimerBlock`: `double start_`.  The member
`double& t_` refers to the caller's accumulator, which is passed in and
returned by the operations below.  Doubles are exact rationals here. -/
structure TimerBlock where
  start_ : ℚ
  deriving DecidableEq, Repr

/-- Constructor `TimerBlock(double& t) : t_(t), start_(Now()) {}`: `now` is the
value of `Now()`; returns the object and the accumulator after construction. -/
def TimerBlock.construct (t : ℚ) (now : ℚ) : TimerBlock × ℚ :=
  (⟨now⟩, t)

/-- Destructor `~TimerBlock() { t_ += Now() - start_; }`: `now` is the value of
`Now()`; returns the accumulator after destruction. -/
def TimerBlock.destroy (tb : TimerBlock) (t : ℚ) (now : ℚ) : ℚ :=
  t + (now - tb.start_)

/-- How control leaves a block. -/
inductive ScopeExit where
  | fallThrough
  | earlyReturn
  | unwound
  deriving DecidableEq, Repr

/-- A block `{ TimerBlock tb(t); body }`: the object is constructed at clock
reading `startNow`, `body` runs (it may itself change the accumulator and may
leave the block in any way), and the destructor runs at clock reading `endNow`
on every way out. -/
def timedScope (startNow endNow : ℚ) (body : ℚ → ScopeExit × ℚ) (t : ℚ) : ScopeExit × ℚ :=
  let (tb, t0) := TimerBlock.construct t startNow
  let (ex, t1) := body t0
  (ex, TimerBlock.destroy tb t1 endNow)

/-- Runs timed blocks one after another on one accumulator.  Each entry gives
the clock readings at construction and destruction and the way its body leaves
the block; the bodies do not touch the accumulator. -/
def runScopes : List (ℚ × ℚ × ScopeExit) → ℚ → ℚ
  | [], t => t
  | (s, e, ex) :: rest, t => runScopes rest (timedScope s e (fun a => (ex, a)) t).2

/-! ## Logging front end -/

/-- The enumeration `LogLevel`. -/
inductive LogLevel where
  | kLogDebug
  | kLogInfo
  | kLogWarn
  | kLogError
  | kLogFatal
  deriving DecidableEq, Repr

/-- Numeric value of an enumerator:
`kLogDebug = 0, kLogInfo = 1, kLogWarn = 2, kLogError = 3, kLogFatal = 4`. -/
def LogLevel.val : LogLevel → Int
  | .kLogDebug => 0
  | .kLogInfo => 1
  | .kLogWarn => 2
  | .kLogError => 3
  | .kLogFatal => 4

/-- One line of the diagnostic output stream. -/
structure LogRecord where
  level : LogLevel
  timestamp : ℚ
  hostname : String
  file : String
  line : Int
  message : String
  deriving DecidableEq, Repr

/-- What a log call can affect: the diagnostic output stream and whether the
process has been terminated. -/
structure Process where
  output : List LogRecord
  terminated : Bool
  deriving DecidableEq, Repr

/-- Modelled from the spec: the body of `logAtLevel`, of which the header holds
only the declaration.  Following the spec's emit contract: if
`level < currentLogLevel` no side effect occurs; otherwise the message is
rendered from `fmt` and `args` and one line (level tag, timestamp, hostname,
file:line, message) is written to the diagnostic stream; if the level is Fatal
the process terminates after emission.  `render` (printf-style substitution),
`now` and `hostname` are the external collaborators. -/
def logAtLevel (currentLogLevel : LogLevel) (render : String → List String → String)
    (now : ℚ) (hostname : String)
    (level : LogLevel) (file : String) (line : Int) (fmt : String) (args : List String)
    (p : Process) : Process :=
  if level.val < currentLogLevel.val then p
  else
    { output := p.output ++ [⟨level, now, hostname, file, line, render fmt args⟩]
      terminated := p.terminated || decide (level = LogLevel.kLogFatal) }

/-- One invocation of `logAtLevel(level, file, line, fmt, ...)` as made by the
`Log_*` front ends. -/
structure LogCall where
  level : LogLevel
  file : String
  line : Int
  fmt : String
  args : List String
  deriving DecidableEq, Repr

/-- `Log_Warn(fmt, ...)` is `logAtLevel(kLogWarn, __FILE__, __LINE__, fmt, ...)`. -/
def Log_Warn (file : String) (line : Int) (fmt : String) (args : List String) : LogCall :=
  ⟨LogLevel.kLogWarn, file, line, fmt, args⟩

/-- `Log_Fatal(fmt, ...)` is `logAtLevel(kLogFatal, __FILE__, __LINE__, fmt, ...)`. -/
def Log_Fatal (file : String) (line : Int) (fmt : String) (args : List String) : LogCall :=
  ⟨LogLevel.kLogFatal, file, line, fmt, args⟩

/-- `Log_Assert(expr, fmt, ...)`: `if(!(expr)) { Log_Fatal(fmt, ...); }`.
`expr` and the message arguments are expressions of the caller, evaluated in
the caller's state `σ`, which they may change.  Returns the `logAtLevel` calls
made and the caller's state afterwards. -/
def Log_Assert {σ : Type} (expr : σ → Bool × σ) (file : String) (line : Int) (fmt : String)
    (args : σ → List String × σ) (s : σ) : List LogCall × σ :=
  let (e, s1) := expr s
  if !e then
    let (as, s2) := args s1
    ([Log_Fatal file line fmt as], s2)
  else ([], s1)

/-- `Log_PAssert(expr, fmt, ...)`:
`if (!(expr)) { Log_Fatal("%s :: (System error: %s)", StringPrintf(fmt, ...).c_str(), strerror(errno)); }`.
`StringPrintf` (from `common/strutil.h`) and `strerror(errno)` are external;
`strerrorErrno` reads the OS error description from the caller's state after
the message arguments have been evaluated. -/
def Log_PAssert {σ : Type} (StringPrintf : String → List String → String)
    (strerrorErrno : σ → String) (expr : σ → Bool × σ) (file : String) (line : Int)
    (fmt : String) (args : σ → List String × σ) (s : σ) : List LogCall × σ :=
  let (e, s1) := expr s
  if !e then
    let (as, s2) := args s1
    ([Log_Fatal file line "%s :: (System error: %s)" [StringPrintf fmt as, strerrorErrno s2]], s2)
  else ([], s1)

/-- `Log_Perror(fmt, ...)`:
`Log_Warn("%s :: (System error: %s)", StringPrintf(fmt, ...).c_str(), strerror(errno));`.
The message arguments are evaluated in the caller's state; `strerrorErrno`
reads the OS error description from the state they leave. -/
def Log_Perror {σ : Type} (StringPrintf : String → List String → String)
    (strerrorErrno : σ → String) (file : String) (line : Int)
    (fmt : String) (args : σ → List String × σ) (s : σ) : List LogCall × σ :=
  let (as, s1) := args s
  ([Log_Warn file line "%s :: (System error: %s)" [StringPrintf fmt as, strerrorErrno s1]], s1)

/-! ## Facts about `EVERY_N` -/

/-- Closed form of a run of `EVERY_N`: from a non-negative counter `c`, as long
as the counter stays within `int`, pass `i` (from 0) runs the operation exactly
when `(c + i) % interval == 0`, and the counter ends at `c + m`. -/
theorem everyNCalls_closed (interval : Int) (hi : interval ≠ 0) (m : Nat) :
    ∀ s : EveryNSite, 0 ≤ s.COUNT → s.COUNT + m ≤ INT_MAX →
      everyNCalls interval m s
        = some ((List.range m).map (fun (i : Nat) => decide (Int.tmod (s.COUNT + (i : Int)) interval = 0)),
                ⟨s.COUNT + m⟩) := by
  induction m with
  | zero => intro s _ _; simp [everyNCalls]
  | succ m ih =>
    intro s h0 hmax
    have hmax' : s.COUNT + 1 + (m : Int) ≤ INT_MAX := by push_cast at hmax; omega
    have hne : s.COUNT ≠ INT_MAX := by
      intro h; rw [h] at hmax; push_cast at hmax; omega
    have hmin : ¬ (s.COUNT = INT_MIN ∧ interval = -1) := by
      rintro ⟨h, _⟩; rw [h] at h0; simp [INT_MIN] at h0
    have hstep : EVERY_N interval s
        = some (decide (Int.tmod s.COUNT interval = 0), ⟨s.COUNT + 1⟩) := by
      simp [EVERY_N, hi, hne, hmin]
    have hrec := ih ⟨s.COUNT + 1⟩ (by simp; omega) (by simpa using hmax')
    simp only [everyNCalls, hstep, hrec, List.range_succ_eq_map, List.map_cons, List.map_map]
    simp only [Option.some.injEq, Prod.mk.injEq, List.cons.injEq]
    refine ⟨⟨by simp, ?_⟩, ?_⟩
    · apply List.map_congr_left
      intro i _
      simp only [Function.comp, Nat.succ_eq_add_one]
      push_cast
      rw [show s.COUNT + 1 + (i : Int) = s.COUNT + ((i : Int) + 1) by ring]
    · congr 1; push_cast; ring

/-- C's `c % interval == 0` on a non-negative `c` says that `|interval|`
divides `c`. -/
theorem tmod_eq_zero_iff_natAbs_dvd (interval : Int) (i : Nat) :
    Int.tmod (i : Int) interval = 0 ↔ interval.natAbs ∣ i := by
  rw [← Int.dvd_iff_tmod_eq_zero, ← Int.natAbs_dvd_natAbs, Int.natAbs_ofNat]

/-- The record of a fresh call site: call `i + 1` runs the operation exactly
when `|interval|` divides `i`. -/
theorem everyNTrace_closed (interval : Int) (hi : interval ≠ 0) (m : Nat)
    (hm : (m : Int) ≤ INT_MAX) :
    everyNTrace interval m
      = some ((List.range m).map (fun (i : Nat) => decide (interval.natAbs ∣ i))) := by
  have h := everyNCalls_closed interval hi m EveryNSite.fresh (by simp [EveryNSite.fresh])
    (by simpa [EveryNSite.fresh] using hm)
  simp only [everyNTrace, h, Option.map_some', Option.some.injEq]
  apply List.map_congr_left
  intro i _
  simp only [EveryNSite.fresh, Int.zero_add]
  exact decide_eq_decide.mpr (tmod_eq_zero_iff_natAbs_dvd interval i)

/-- Among the numbers `0, …, m - 1` exactly `⌈m / n⌉` are multiples of `n`. -/
theorem count_multiples (n : Nat) (hn : 1 ≤ n) (m : Nat) :
    ((List.range m).map (fun (i : Nat) => decide (n ∣ i))).count true = (m + n - 1) / n := by
  induction m with
  | zero =>
    simp only [List.range_zero, List.map_nil, List.count_nil, Nat.zero_add]
    exact (Nat.div_eq_of_lt (by omega)).symm
  | succ m ih =>
    rw [List.range_succ, List.map_append, List.count_append, ih]
    simp only [List.map_cons, List.map_nil, List.count_cons, List.count_nil, Nat.zero_add]
    have hq := Nat.div_add_mod m n
    have hr := Nat.mod_lt m hn
    by_cases hd : n ∣ m
    · have h0 : m % n = 0 := Nat.mod_eq_zero_of_dvd hd
      have e1 : m + n - 1 = (n - 1) + n * (m / n) := by omega
      have e2 : m + 1 + n - 1 = 0 + n * (m / n + 1) := by rw [Nat.mul_add]; omega
      rw [e1, e2, Nat.add_mul_div_left _ _ hn, Nat.add_mul_div_left _ _ hn,
        Nat.div_eq_of_lt (by omega : n - 1 < n)]
      simp [hd]
    · have h0 : m % n ≠ 0 := fun h => hd (Nat.dvd_of_mod_eq_zero h)
      have e1 : m + n - 1 = (m % n - 1) + n * (m / n + 1) := by rw [Nat.mul_add]; omega
      have e2 : m + 1 + n - 1 = (m % n) + n * (m / n + 1) := by rw [Nat.mul_add]; omega
      rw [e1, e2, Nat.add_mul_div_left _ _ hn, Nat.add_mul_div_left _ _ hn,
        Nat.div_eq_of_lt (by omega : m % n - 1 < n), Nat.div_eq_of_lt hr]
      simp [hd]

/-- Call number `k` of a fresh call site runs the operation exactly when
`|interval|` divides `k - 1`. -/
theorem everyNRan_closed (interval : Int) (hi : interval ≠ 0) (k : Nat) (hk : 1 ≤ k)
    (hmax : (k : Int) ≤ INT_MAX) :
    everyNRan interval k = some (decide (interval.natAbs ∣ k - 1)) := by
  rw [everyNRan, everyNTrace_closed interval hi k hmax]
  simp only [Option.some_bind, List.getElem?_map,
    List.getElem?_range (by omega : k - 1 < k), Option.map_some']

/-- A run that would push `COUNT` past `INT_MAX` is undefined. -/
theorem everyNCalls_overflow (interval : Int) (m : Nat) :
    ∀ s : EveryNSite, s.COUNT ≤ INT_MAX → INT_MAX < s.COUNT + m →
      everyNCalls interval m s = none := by
  induction m with
  | zero => intro s h1 h2; simp at h2; omega
  | succ m ih =>
    intro s h1 h2
    unfold everyNCalls
    by_cases h0 : interval = 0
    · simp [EVERY_N, h0]
    by_cases hmin : s.COUNT = INT_MIN ∧ interval = -1
    · simp [EVERY_N, h0, hmin]
    by_cases hmx : s.COUNT = INT_MAX
    · simp [EVERY_N, h0, hmin, hmx]
    · have hstep : EVERY_N interval s
          = some (decide (Int.tmod s.COUNT interval = 0), ⟨s.COUNT + 1⟩) := by
        simp [EVERY_N, h0, hmx, hmin]
      have hrec := ih ⟨s.COUNT + 1⟩ (by simp only; omega)
        (by simp only; push_cast at h2; omega)
      simp only [hstep, hrec]

/-- A call whose outcome is defined has a call number within `int`. -/
theorem everyNRan_defined_le (interval : Int) (k : Nat) (b : Bool)
    (h : everyNRan interval k = some b) : (k : Int) ≤ INT_MAX := by
  by_contra hcon
  have hnone := everyNCalls_overflow interval k EveryNSite.fresh (by decide)
    (by simp only [EveryNSite.fresh]; omega)
  simp [everyNRan, everyNTrace, hnone] at h

/-- A defined execution count belongs to a run within `int`. -/
theorem everyNExecutions_defined_le (interval : Int) (m n : Nat)
    (h : everyNExecutions interval m = some n) : (m : Int) ≤ INT_MAX := by
  by_contra hcon
  have hnone := everyNCalls_overflow interval m EveryNSite.fresh (by decide)
    (by simp only [EveryNSite.fresh]; omega)
  simp [everyNExecutions, everyNTrace, hnone] at h

/-- On a non-negative counter one pass with interval `-n` is the pass with
interval `n`: C's `c % (-n)` equals `c % n`. -/
theorem EVERY_N_neg (n : Int) (s : EveryNSite) (h0 : 0 ≤ s.COUNT) :
    EVERY_N (-n) s = EVERY_N n s := by
  have hmin : s.COUNT ≠ INT_MIN := by
    intro h; rw [h] at h0; simp [INT_MIN] at h0
  simp only [EVERY_N, Int.neg_eq_zero, hmin, false_and, if_false, Int.tmod_neg]

/-- A pass that is defined moves a non-negative counter to a non-negative
counter. -/
theorem EVERY_N_count_nonneg (n : Int) (s : EveryNSite) (b : Bool) (s' : EveryNSite)
    (h0 : 0 ≤ s.COUNT) (h : EVERY_N n s = some (b, s')) : 0 ≤ s'.COUNT := by
  unfold EVERY_N at h
  split at h
  · simp at h
  · split at h
    · simp at h
    · split at h
      · simp at h
      · simp only [Option.some.injEq, Prod.mk.injEq] at h
        rw [← h.2]
        simp only
        omega

/-- From a non-negative counter a run with interval `-n` is the run with
interval `n`. -/
theorem everyNCalls_neg (n : Int) (m : Nat) :
    ∀ s : EveryNSite, 0 ≤ s.COUNT → everyNCalls (-n) m s = everyNCalls n m s := by
  induction m with
  | zero => intro s _; rfl
  | succ m ih =>
    intro s h0
    simp only [everyNCalls, EVERY_N_neg n s h0]
    cases hstep : EVERY_N n s with
    | none => rfl
    | some r =>
      obtain ⟨b, s1⟩ := r
      simp only
      rw [ih s1 (EVERY_N_count_nonneg n s b s1 h0 hstep)]

/-! ## Claims about `EVERY_N` -/

/-- C1, as stated, fails: with interval 2 a single call of a fresh `EVERY_N`
call site already runs the operation once, whereas `⌊1 / 2⌋ = 0`. -/
theorem C1_counterexample :
    everyNExecutions 2 1 = some 1 ∧ everyNExecutions 2 1 ≠ some (1 / 2) := by
  decide

/-- C1, amended: for every interval `N ≥ 1` and every number of calls `M`
within the range of the `int` counter, `M` calls of a fresh `EVERY_N` call site
run the wrapped operation exactly `⌈M / N⌉ = ⌊(M + N - 1) / N⌋` times. -/
theorem C1_everyN_executions_ceil (N M : Nat) (hN : 1 ≤ N) (hM : (M : Int) ≤ INT_MAX) :
    everyNExecutions (N : Int) M = some ((M + N - 1) / N) := by
  have hi : (N : Int) ≠ 0 := by omega
  rw [everyNExecutions, everyNTrace_closed (N : Int) hi M hM]
  simp only [Option.map_some', Int.natAbs_ofNat, Option.some.injEq]
  exact count_multiples N hN M

/-- Witness of C1 (amended): interval 3, 7 calls, 3 executions. -/
theorem C1_everyN_executions_ceil_witness :
    1 ≤ 3 ∧ ((7 : Nat) : Int) ≤ INT_MAX ∧
      everyNExecutions ((3 : Nat) : Int) 7 = some ((7 + 3 - 1) / 3) :=
  ⟨by decide, by decide, C1_everyN_executions_ceil 3 7 (by decide) (by decide)⟩

/-- C2, as stated, fails: with interval 2 call number 1 of a fresh call site
runs the operation and call number 2 does not. -/
theorem C2_counterexample :
    everyNRan 2 1 = some true ∧ everyNRan 2 2 = some false := by
  decide

/-- C2, amended: for every interval `N ≥ 1` (an `int`), on a fresh `EVERY_N`
call site the first execution of the wrapped operation is on call number 1,
and for `N ≥ 2` the calls numbered `2, …, N` do not execute it. -/
theorem C2_everyN_first_execution (N : Nat) (hN : 1 ≤ N) (hmax : (N : Int) ≤ INT_MAX) :
    everyNRan (N : Int) 1 = some true ∧
      ∀ k : Nat, 2 ≤ k → k ≤ N → everyNRan (N : Int) k = some false := by
  have hi : (N : Int) ≠ 0 := by omega
  refine ⟨?_, ?_⟩
  · rw [everyNRan_closed (N : Int) hi 1 (le_refl 1) (by simp [INT_MAX])]
    simp
  · intro k hk2 hkN
    rw [everyNRan_closed (N : Int) hi k (by omega) (by omega)]
    simp only [Int.natAbs_ofNat, Option.some.injEq, decide_eq_false_iff_not]
    intro hd
    have := Nat.le_of_dvd (by omega) hd
    omega

/-- Witness of C2 (amended): interval 3. -/
theorem C2_everyN_first_execution_witness :
    1 ≤ 3 ∧ ((3 : Nat) : Int) ≤ INT_MAX ∧
      (everyNRan ((3 : Nat) : Int) 1 = some true ∧
        ∀ k : Nat, 2 ≤ k → k ≤ 3 → everyNRan ((3 : Nat) : Int) k = some false) :=
  ⟨by decide, by decide, C2_everyN_first_execution 3 (by decide) (by decide)⟩

/-- C10: for every interval `N ≥ 1`, if calls number `j < k` of one `EVERY_N`
call site both execute the wrapped operation and no call between them does,
then `k = j + N`: exactly `N - 1` non-executing calls lie between two
consecutive executing calls. -/
theorem C10_everyN_gap (N j k : Nat) (hN : 1 ≤ N) (hj : 1 ≤ j) (hjk : j < k)
    (hfj : everyNRan (N : Int) j = some true) (hfk : everyNRan (N : Int) k = some true)
    (hbetween : ∀ i : Nat, j < i → i < k → everyNRan (N : Int) i = some false) :
    k = j + N ∧ k - j - 1 = N - 1 := by
  have hi : (N : Int) ≠ 0 := by omega
  have hmax : (k : Int) ≤ INT_MAX := everyNRan_defined_le (N : Int) k true hfk
  rw [everyNRan_closed (N : Int) hi j hj (by omega)] at hfj
  rw [everyNRan_closed (N : Int) hi k (by omega) hmax] at hfk
  simp only [Int.natAbs_ofNat, Option.some.injEq, decide_eq_true_eq] at hfj hfk
  have hlow : j + N ≤ k := by
    obtain ⟨a, ha⟩ := hfj
    obtain ⟨b, hb⟩ := hfk
    have hab : a < b := by
      by_contra hcon
      have : N * b ≤ N * a := Nat.mul_le_mul_left N (by omega)
      omega
    have : N * (a + 1) ≤ N * b := Nat.mul_le_mul_left N (by omega)
    rw [Nat.mul_add] at this
    omega
  have hhigh : k ≤ j + N := by
    by_contra hcon
    have hb := hbetween (j + N) (by omega) (by omega)
    rw [everyNRan_closed (N : Int) hi (j + N) (by omega) (by omega)] at hb
    simp only [Int.natAbs_ofNat, Option.some.injEq, decide_eq_false_iff_not] at hb
    apply hb
    have e : j + N - 1 = (j - 1) + N := by omega
    rw [e]
    exact Nat.dvd_add hfj (Nat.dvd_refl N)
  omega

/-- Witness of C10: interval 3, the executing calls number 1 and 4. -/
theorem C10_everyN_gap_witness :
    everyNRan ((3 : Nat) : Int) 1 = some true ∧ everyNRan ((3 : Nat) : Int) 4 = some true ∧
      (∀ i : Nat, 1 < i → i < 4 → everyNRan ((3 : Nat) : Int) i = some false) ∧
      (4 = 1 + 3 ∧ 4 - 1 - 1 = 3 - 1) :=
  ⟨by decide, by decide, by intro i h1 h2; interval_cases i <;> decide,
    C10_everyN_gap 3 1 4 (by decide) (by decide) (by decide) (by decide) (by decide)
      (by intro i h1 h2; interval_cases i <;> decide)⟩

/-- C11: with interval 1 every call of a fresh `EVERY_N` call site runs the
operation: whenever `M` calls are defined they run it exactly `M` times, and
they are defined for every `M` within the range of the `int` counter. -/
theorem C11_everyN_interval_one (M : Nat) :
    (∀ n, everyNExecutions 1 M = some n → n = M) ∧
      ((M : Int) ≤ INT_MAX →
        everyNExecutions 1 M = some M ∧
        ∀ k : Nat, 1 ≤ k → k ≤ M → everyNRan 1 k = some true) := by
  have hcount : (M : Int) ≤ INT_MAX → everyNExecutions 1 M = some M := by
    intro hM
    rw [everyNExecutions, everyNTrace_closed 1 (by decide) M hM]
    have h := count_multiples 1 (le_refl 1) M
    simp only [Nat.add_sub_cancel, Nat.div_one] at h
    simp only [Option.map_some', Option.some.injEq]
    exact h
  refine ⟨?_, fun hM => ⟨hcount hM, ?_⟩⟩
  · intro n hn
    have hM := everyNExecutions_defined_le 1 M n hn
    rw [hcount hM] at hn
    exact (Option.some.inj hn).symm
  · intro k hk1 hkM
    rw [everyNRan_closed 1 (by decide) k hk1 (by omega)]
    simp

/-- C16: for every interval `N ≥ 1`, on a fresh `EVERY_N` call site, as long
as `COUNT` stays within `int`: call `k` runs the operation exactly when
`(k - 1) mod N = 0`, so call 1 always does and the executing calls are
`1, N + 1, 2N + 1, …`; after `M` calls `COUNT = M`; and `M ≥ 1` calls run the
operation `⌊(M - 1) / N⌋ + 1 = ⌈M / N⌉` times. -/
theorem C16_everyN_tests_before_increment (N M k : Nat) (hN : 1 ≤ N) (hk : 1 ≤ k)
    (hkM : k ≤ M) (hM : (M : Int) ≤ INT_MAX) :
    everyNRan (N : Int) k = some (decide ((k - 1) % N = 0)) ∧
      everyNRan (N : Int) 1 = some true ∧
      (everyNRan (N : Int) k = some true ↔ ∃ q : Nat, k = q * N + 1) ∧
      (everyNCalls (N : Int) M EveryNSite.fresh).map (fun r => r.2.COUNT) = some (M : Int) ∧
      everyNExecutions (N : Int) M = some ((M - 1) / N + 1) ∧
      (M - 1) / N + 1 = (M + N - 1) / N := by
  have hi : (N : Int) ≠ 0 := by omega
  have hk' := everyNRan_closed (N : Int) hi k hk (by omega)
  simp only [Int.natAbs_ofNat] at hk'
  have hceil : (M - 1) / N + 1 = (M + N - 1) / N := by
    have e : M + N - 1 = (M - 1) + N := by omega
    rw [e, Nat.add_div_right _ (by omega : 0 < N)]
  refine ⟨?_, ?_, ?_, ?_, ?_, hceil⟩
  · rw [hk']
    exact congrArg some (decide_eq_decide.mpr Nat.dvd_iff_mod_eq_zero)
  · rw [everyNRan_closed (N : Int) hi 1 (le_refl 1) (by simp [INT_MAX])]
    simp
  · rw [hk']
    simp only [Option.some.injEq, decide_eq_true_eq]
    constructor
    · rintro ⟨q, hq⟩
      exact ⟨q, by rw [Nat.mul_comm]; omega⟩
    · rintro ⟨q, hq⟩
      exact ⟨q, by rw [hq, Nat.mul_comm]; simp⟩
  · rw [everyNCalls_closed (N : Int) hi M EveryNSite.fresh (by simp [EveryNSite.fresh])
      (by simpa [EveryNSite.fresh] using hM)]
    simp [EveryNSite.fresh]
  · rw [everyNExecutions, everyNTrace_closed (N : Int) hi M hM]
    simp only [Option.map_some', Int.natAbs_ofNat, Option.some.injEq]
    rw [count_multiples N hN M, hceil]

/-- Witness of C16: interval 3, 7 calls, call number 4. -/
theorem C16_everyN_tests_before_increment_witness :
    everyNRan ((3 : Nat) : Int) 4 = some (decide ((4 - 1) % 3 = 0)) ∧
      everyNRan ((3 : Nat) : Int) 1 = some true ∧
      (everyNRan ((3 : Nat) : Int) 4 = some true ↔ ∃ q : Nat, 4 = q * 3 + 1) ∧
      (everyNCalls ((3 : Nat) : Int) 7 EveryNSite.fresh).map (fun r => r.2.COUNT)
        = some ((7 : Nat) : Int) ∧
      everyNExecutions ((3 : Nat) : Int) 7 = some ((7 - 1) / 3 + 1) ∧
      (7 - 1) / 3 + 1 = (7 + 3 - 1) / 3 :=
  C16_everyN_tests_before_increment 3 7 4 (by decide) (by decide) (by decide) (by decide)

/-- C17: a negative interval is accepted by `EVERY_N` and behaves like its
absolute value: for every `N ≥ 1` and every number of calls, a fresh call site
with interval `-N` runs the operation on exactly the calls on which interval
`N` does, namely (within `int`) the calls `i + 1` with `N` dividing `i`. -/
theorem C17_everyN_negative_interval (N M : Nat) (hN : 1 ≤ N) :
    everyNTrace (-(N : Int)) M = everyNTrace (N : Int) M ∧
      (∀ s : EveryNSite, 0 ≤ s.COUNT → EVERY_N (-(N : Int)) s = EVERY_N (N : Int) s) ∧
      ((M : Int) ≤ INT_MAX →
        everyNTrace (-(N : Int)) M
          = some ((List.range M).map (fun (i : Nat) => decide (N ∣ i)))) := by
  refine ⟨?_, fun s h0 => EVERY_N_neg (N : Int) s h0, ?_⟩
  · simp only [everyNTrace,
      everyNCalls_neg (N : Int) M EveryNSite.fresh (by simp [EveryNSite.fresh])]
  · intro hM
    have hi : -(N : Int) ≠ 0 := by omega
    rw [everyNTrace_closed (-(N : Int)) hi M hM]
    simp

/-- Witness of C17: intervals `-3` and `3`, 7 calls. -/
theorem C17_everyN_negative_interval_witness :
    everyNTrace (-((3 : Nat) : Int)) 7 = some [true, false, false, true, false, false, true] ∧
      (everyNTrace (-((3 : Nat) : Int)) 7 = everyNTrace ((3 : Nat) : Int) 7 ∧
        (∀ s : EveryNSite, 0 ≤ s.COUNT →
          EVERY_N (-((3 : Nat) : Int)) s = EVERY_N ((3 : Nat) : Int) s) ∧
        (((7 : Nat) : Int) ≤ INT_MAX →
          everyNTrace (-((3 : Nat) : Int)) 7
            = some ((List.range 7).map (fun (i : Nat) => decide (3 ∣ i))))) :=
  ⟨by decide, C17_everyN_negative_interval 3 7 (by decide)⟩

/-! ## Facts about `PERIODIC` -/

/-- The converted cycle-counter reading is a valid `int64_t`. -/
theorem toInt64_range (tsc : Nat) : INT64_MIN ≤ toInt64 tsc ∧ toInt64 tsc ≤ INT64_MAX := by
  have h := Nat.mod_lt tsc (by norm_num : 0 < 2 ^ 64)
  unfold toInt64 INT64_MIN INT64_MAX
  split <;> constructor <;> omega

/-- One pass of an initialised or about-to-be-initialised call site whose
counter and `now - last` cannot overflow. -/
theorem PERIODIC_step (thr : Int) (tsc : Nat) (s : PeriodicSite)
    (hcount : s.COUNT ≠ INT_MAX)
    (hlo : INT64_MIN ≤ toInt64 tsc - s.last) (hhi : toInt64 tsc - s.last ≤ INT64_MAX) :
    PERIODIC thr tsc s
      = if s.cycles.getD thr < toInt64 tsc - s.last
        then some (true, ⟨toInt64 tsc, some (s.cycles.getD thr), 0⟩)
        else some (false, ⟨s.last, some (s.cycles.getD thr), s.COUNT + 1⟩) := by
  have h1 : ¬ (toInt64 tsc - s.last < INT64_MIN ∨ INT64_MAX < toInt64 tsc - s.last) := by
    omega
  simp only [PERIODIC, START_PERIODIC, hcount, if_false, h1, gt_iff_lt]

/-- The first pass of a fresh call site: defined for every threshold and
reading, and the block runs exactly when `now > cycles`. -/
theorem PERIODIC_fresh (thr : Int) (tsc : Nat) :
    PERIODIC thr tsc PeriodicSite.fresh
      = some (decide (thr < toInt64 tsc),
          if thr < toInt64 tsc then ⟨toInt64 tsc, some thr, 0⟩ else ⟨0, some thr, 1⟩) := by
  have hr := toInt64_range tsc
  have h := PERIODIC_step thr tsc PeriodicSite.fresh (by decide)
    (by simp only [PeriodicSite.fresh]; omega) (by simp only [PeriodicSite.fresh]; omega)
  rw [h]
  simp only [PeriodicSite.fresh, Option.getD_none, Int.sub_zero, Int.zero_add]
  split <;> simp [*]

/-- Window property of every defined run of `PERIODIC`, from any state whose
`last` is non-negative and is 0 or at most every coming `now`. -/
theorem periodicCalls_window_defined (c : Int) (hc : 0 ≤ c) :
    ∀ (calls : List (Int × Nat)) (s : PeriodicSite) (ran : List Bool) (s' : PeriodicSite),
      (∀ x ∈ calls.head?, s.cycles.getD x.1 = c) →
      0 ≤ s.last →
      (s.last = 0 ∨ ∀ x ∈ calls, s.last ≤ toInt64 x.2) →
      (calls.map (fun x => toInt64 x.2)).Pairwise (· ≤ ·) →
      periodicCalls calls s = some (ran, s') →
      ran.length = calls.length ∧
        (∀ b ∈ firedNows calls ran, c < b - s.last) ∧
        (firedNows calls ran).Pairwise (fun a b => c < b - a) := by
  intro calls
  induction calls with
  | nil =>
    intro s ran s' _ _ _ _ hrun
    simp only [periodicCalls, Option.some.injEq, Prod.mk.injEq] at hrun
    obtain ⟨rfl, _⟩ := hrun
    exact ⟨rfl, by simp [firedNows], by simp [firedNows]⟩
  | cons x rest ih =>
    obtain ⟨thr, tsc⟩ := x
    intro s ran s' hcyc hl0 hlast hmono hrun
    have hcyc' : s.cycles.getD thr = c := hcyc (thr, tsc) (by simp)
    have hr := toInt64_range tsc
    have hlo : INT64_MIN ≤ toInt64 tsc - s.last := by
      rcases hlast with h | h
      · rw [h]; omega
      · have := h (thr, tsc) (by simp)
        simp only at this
        unfold INT64_MIN; omega
    have hhi : toInt64 tsc - s.last ≤ INT64_MAX := by omega
    rw [List.map_cons, List.pairwise_cons] at hmono
    obtain ⟨hhead, htail⟩ := hmono
    by_cases hne : s.COUNT = INT_MAX
    · simp [periodicCalls, PERIODIC, START_PERIODIC, hne] at hrun
    have hstep := PERIODIC_step thr tsc s hne hlo hhi
    rw [hcyc'] at hstep
    by_cases hfire : c < toInt64 tsc - s.last
    · rw [if_pos hfire] at hstep
      simp only [periodicCalls, hstep] at hrun
      cases hrest : periodicCalls rest ⟨toInt64 tsc, some c, 0⟩ with
      | none => simp [hrest] at hrun
      | some r =>
        obtain ⟨bs, s2⟩ := r
        simp only [hrest, Option.some.injEq, Prod.mk.injEq] at hrun
        obtain ⟨rfl, rfl⟩ := hrun
        obtain ⟨hlenr, hall, hpw⟩ :=
          ih ⟨toInt64 tsc, some c, 0⟩ bs s2 (by intro y _; rfl) (by simp only; omega)
            (Or.inr (by
              intro y hy
              exact hhead _ (List.mem_map.mpr ⟨y, hy, rfl⟩)))
            htail hrest
        refine ⟨by simp [hlenr], ?_, ?_⟩
        · intro b hb
          simp only [firedNows, List.mem_cons] at hb
          rcases hb with rfl | hb
          · exact hfire
          · have := hall b hb
            simp only at this
            omega
        · simp only [firedNows, List.pairwise_cons]
          exact ⟨fun b hb => by simpa using hall b hb, hpw⟩
    · rw [if_neg hfire] at hstep
      simp only [periodicCalls, hstep] at hrun
      cases hrest : periodicCalls rest ⟨s.last, some c, s.COUNT + 1⟩ with
      | none => simp [hrest] at hrun
      | some r =>
        obtain ⟨bs, s2⟩ := r
        simp only [hrest, Option.some.injEq, Prod.mk.injEq] at hrun
        obtain ⟨rfl, rfl⟩ := hrun
        obtain ⟨hlenr, hall, hpw⟩ :=
          ih ⟨s.last, some c, s.COUNT + 1⟩ bs s2 (by intro y _; rfl) hl0
            (by
              rcases hlast with h | h
              · exact Or.inl h
              · exact Or.inr (fun y hy => h y (List.mem_cons_of_mem _ hy)))
            htail hrest
        refine ⟨by simp [hlenr], ?_, ?_⟩
        · intro b hb
          simp only [firedNows] at hb
          exact hall b hb
        · simpa only [firedNows] using hpw

/-- A run of `PERIODIC` is defined when `COUNT` has room for its passes, from
any state whose `last` is non-negative and is 0 or at most every coming
`now`. -/
theorem periodicCalls_defined (c : Int) (hc : 0 ≤ c) :
    ∀ (calls : List (Int × Nat)) (s : PeriodicSite),
      (∀ x ∈ calls.head?, s.cycles.getD x.1 = c) →
      0 ≤ s.last →
      (s.last = 0 ∨ ∀ x ∈ calls, s.last ≤ toInt64 x.2) →
      (calls.map (fun x => toInt64 x.2)).Pairwise (· ≤ ·) →
      0 ≤ s.COUNT → s.COUNT + calls.length ≤ INT_MAX →
      ∃ ran s', periodicCalls calls s = some (ran, s') := by
  intro calls
  induction calls with
  | nil =>
    intro s _ _ _ _ _ _
    exact ⟨[], s, rfl⟩
  | cons x rest ih =>
    obtain ⟨thr, tsc⟩ := x
    intro s hcyc hl0 hlast hmono hc0 hcmax
    have hcyc' : s.cycles.getD thr = c := hcyc (thr, tsc) (by simp)
    have hlen : s.COUNT + 1 + (rest.length : Int) ≤ INT_MAX := by
      simp only [List.length_cons] at hcmax; push_cast at hcmax; omega
    have hne : s.COUNT ≠ INT_MAX := by omega
    have hr := toInt64_range tsc
    have hlo : INT64_MIN ≤ toInt64 tsc - s.last := by
      rcases hlast with h | h
      · rw [h]; omega
      · have := h (thr, tsc) (by simp)
        simp only at this
        unfold INT64_MIN; omega
    have hhi : toInt64 tsc - s.last ≤ INT64_MAX := by omega
    rw [List.map_cons, List.pairwise_cons] at hmono
    obtain ⟨hhead, htail⟩ := hmono
    have hstep := PERIODIC_step thr tsc s hne hlo hhi
    rw [hcyc'] at hstep
    by_cases hfire : c < toInt64 tsc - s.last
    · rw [if_pos hfire] at hstep
      obtain ⟨ran, s', hrun⟩ :=
        ih ⟨toInt64 tsc, some c, 0⟩ (by intro y _; rfl) (by simp only; omega)
          (Or.inr (by
            intro y hy
            exact hhead _ (List.mem_map.mpr ⟨y, hy, rfl⟩)))
          htail (by simp) (by simp only; omega)
      exact ⟨true :: ran, s', by simp only [periodicCalls, hstep, hrun]⟩
    · rw [if_neg hfire] at hstep
      obtain ⟨ran, s', hrun⟩ :=
        ih ⟨s.last, some c, s.COUNT + 1⟩ (by intro y _; rfl) hl0
          (by
            rcases hlast with h | h
            · exact Or.inl h
            · exact Or.inr (fun y hy => h y (List.mem_cons_of_mem _ hy)))
          htail (by simp only; omega) (by simpa using hlen)
      exact ⟨false :: ran, s', by simp only [periodicCalls, hstep, hrun]⟩

/-- A defined pass had room in `COUNT` and no overflow in `now - last`. -/
theorem PERIODIC_some_inv (thr : Int) (tsc : Nat) (s : PeriodicSite) (r : Bool × PeriodicSite)
    (h : PERIODIC thr tsc s = some r) :
    s.COUNT ≠ INT_MAX ∧ INT64_MIN ≤ toInt64 tsc - s.last ∧
      toInt64 tsc - s.last ≤ INT64_MAX := by
  simp only [PERIODIC, START_PERIODIC] at h
  split at h
  · simp at h
  · split at h
    · simp at h
    · refine ⟨by assumption, ?_, ?_⟩ <;> omega

/-- Once `cycles` is initialised, the value the threshold expression would
have at a pass plays no part in it. -/
theorem PERIODIC_thr_irrelevant (c thr thr' : Int) (tsc : Nat) (s : PeriodicSite)
    (hc : s.cycles = some c) : PERIODIC thr tsc s = PERIODIC thr' tsc s := by
  simp only [PERIODIC, START_PERIODIC, hc, Option.getD_some]

/-- A defined pass leaves in `cycles` the threshold it used. -/
theorem PERIODIC_cycles (thr : Int) (tsc : Nat) (s : PeriodicSite) (b : Bool)
    (s' : PeriodicSite) (h : PERIODIC thr tsc s = some (b, s')) :
    s'.cycles = some (s.cycles.getD thr) ∧
      (b = true ↔ s.cycles.getD thr < toInt64 tsc - s.last) := by
  obtain ⟨h1, h2, h3⟩ := PERIODIC_some_inv thr tsc s (b, s') h
  rw [PERIODIC_step thr tsc s h1 h2 h3] at h
  split at h
  · simp only [Option.some.injEq, Prod.mk.injEq] at h
    obtain ⟨rfl, rfl⟩ := h
    simp [*]
  · simp only [Option.some.injEq, Prod.mk.injEq] at h
    obtain ⟨rfl, rfl⟩ := h
    simp [*]

/-- From a state with `cycles` initialised to `c`, a run does not depend on the
later values of the threshold expression, and it keeps `cycles = c`. -/
theorem periodicCalls_cycles_fixed (c : Int) :
    ∀ (calls : List (Int × Nat)) (s : PeriodicSite), s.cycles = some c →
      periodicCalls calls s = periodicCalls (calls.map (fun x => (c, x.2))) s ∧
        ∀ ran s', periodicCalls calls s = some (ran, s') → s'.cycles = some c := by
  intro calls
  induction calls with
  | nil =>
    intro s hc
    refine ⟨rfl, ?_⟩
    intro ran s' h
    simp only [periodicCalls, Option.some.injEq, Prod.mk.injEq] at h
    rw [← h.2]; exact hc
  | cons x rest ih =>
    obtain ⟨thr, tsc⟩ := x
    intro s hc
    simp only [List.map_cons, periodicCalls, PERIODIC_thr_irrelevant c thr c tsc s hc]
    cases hstep : PERIODIC c tsc s with
    | none => simp
    | some r =>
      obtain ⟨b, s1⟩ := r
      have hc1 : s1.cycles = some c := by
        have := (PERIODIC_cycles c tsc s b s1 hstep).1
        rw [this, hc]; rfl
      obtain ⟨heq, hkeep⟩ := ih s1 hc1
      simp only [heq, true_and]
      intro ran s' h
      cases hrest : periodicCalls (rest.map (fun x => (c, x.2))) s1 with
      | none => simp [hrest] at h
      | some r2 =>
        obtain ⟨bs, s2⟩ := r2
        simp only [hrest, Option.some.injEq, Prod.mk.injEq] at h
        rw [← h.2]
        exact hkeep bs s2 (by rw [heq]; exact hrest)

/-- The record of a defined run has one entry per pass. -/
theorem periodicCalls_length :
    ∀ (calls : List (Int × Nat)) (s : PeriodicSite) (ran : List Bool) (s' : PeriodicSite),
      periodicCalls calls s = some (ran, s') → ran.length = calls.length := by
  intro calls
  induction calls with
  | nil =>
    intro s ran s' h
    simp only [periodicCalls, Option.some.injEq, Prod.mk.injEq] at h
    rw [← h.1]; rfl
  | cons x rest ih =>
    obtain ⟨thr, tsc⟩ := x
    intro s ran s' h
    simp only [periodicCalls] at h
    cases hstep : PERIODIC thr tsc s with
    | none => simp [hstep] at h
    | some r =>
      obtain ⟨b, s1⟩ := r
      simp only [hstep] at h
      cases hrest : periodicCalls rest s1 with
      | none => simp [hrest] at h
      | some r2 =>
        obtain ⟨bs, s2⟩ := r2
        simp only [hrest, Option.some.injEq, Prod.mk.injEq] at h
        rw [← h.1, List.length_cons, List.length_cons, ih s1 bs s2 hrest]

/-- A run followed by one more pass. -/
theorem periodicCalls_snoc (x : Int × Nat) :
    ∀ (calls : List (Int × Nat)) (s : PeriodicSite),
      periodicCalls (calls ++ [x]) s
        = match periodicCalls calls s with
          | none => none
          | some (ran, s1) =>
            match PERIODIC x.1 x.2 s1 with
            | none => none
            | some (b, s2) => some (ran ++ [b], s2) := by
  intro calls
  induction calls with
  | nil =>
    intro s
    obtain ⟨thr, tsc⟩ := x
    simp only [List.nil_append, periodicCalls]
  | cons y rest ih =>
    obtain ⟨thr, tsc⟩ := y
    intro s
    have e1 : periodicCalls ((thr, tsc) :: rest ++ [x]) s
        = match PERIODIC thr tsc s with
          | none => none
          | some (b, s1) =>
            match periodicCalls (rest ++ [x]) s1 with
            | none => none
            | some (bs, s2) => some (b :: bs, s2) := rfl
    have e2 : periodicCalls ((thr, tsc) :: rest) s
        = match PERIODIC thr tsc s with
          | none => none
          | some (b, s1) =>
            match periodicCalls rest s1 with
            | none => none
            | some (bs, s2) => some (b :: bs, s2) := rfl
    rw [e1, e2]
    cases PERIODIC thr tsc s with
    | none => rfl
    | some r =>
      obtain ⟨b, s1⟩ := r
      simp only [ih s1]
      cases periodicCalls rest s1 with
      | none => rfl
      | some r2 =>
        obtain ⟨bs, s2⟩ := r2
        simp only
        cases PERIODIC x.1 x.2 s2 with
        | none => rfl
        | some r3 => rfl

/-- The executing `now` values of a run followed by one more pass. -/
theorem firedNows_snoc (x : Int × Nat) (b : Bool) :
    ∀ (calls : List (Int × Nat)) (ran : List Bool), ran.length = calls.length →
      firedNows (calls ++ [x]) (ran ++ [b])
        = firedNows calls ran ++ (if b then [toInt64 x.2] else []) := by
  intro calls
  induction calls with
  | nil =>
    intro ran hl
    have : ran = [] := List.length_eq_zero.mp hl
    subst this
    obtain ⟨thr, tsc⟩ := x
    cases b <;> simp [firedNows]
  | cons y rest ih =>
    intro ran hl
    obtain ⟨thr, tsc⟩ := y
    cases ran with
    | nil => simp at hl
    | cons a bs =>
      have hl' : bs.length = rest.length := by simpa using hl
      cases a <;> simp [firedNows, ih bs hl']

/-- The count of passes since the last executing one, after one more pass. -/
theorem passesSinceFire_snoc (ran : List Bool) (b : Bool) :
    passesSinceFire (ran ++ [b]) = if b then 0 else passesSinceFire ran + 1 := by
  cases b <;> simp [passesSinceFire, List.takeWhile_cons]

/-- If no pass ran the block, all passes count. -/
theorem passesSinceFire_of_not_mem (ran : List Bool) (h : true ∉ ran) :
    passesSinceFire ran = ran.length := by
  have hall : ∀ x ∈ ran.reverse, (fun b : Bool => !b) x = true := by
    intro x hx
    cases x with
    | false => rfl
    | true => exact absurd (List.mem_reverse.mp hx) h
  rw [passesSinceFire, List.takeWhile_eq_self_iff.mpr hall, List.length_reverse]

/-- If no pass ran the block, there is no executing `now` value. -/
theorem firedNows_of_not_mem :
    ∀ (calls : List (Int × Nat)) (ran : List Bool), true ∉ ran → firedNows calls ran = [] := by
  intro calls
  induction calls with
  | nil => intro ran _; cases ran <;> simp [firedNows]
  | cons y rest ih =>
    intro ran h
    cases ran with
    | nil => simp [firedNows]
    | cons a bs =>
      cases a with
      | true => simp at h
      | false =>
        simp only [firedNows]
        exact ih bs (fun hm => h (List.mem_cons_of_mem _ hm))

/-- Invariant of the reachable states: after a defined run from a fresh call
site, `COUNT` is the number of passes since the last executing one and `last`
is the `now` of the last executing pass, or 0. -/
theorem periodicCalls_invariant (calls : List (Int × Nat)) :
    ∀ (ran : List Bool) (s' : PeriodicSite),
      periodicCalls calls PeriodicSite.fresh = some (ran, s') →
      s'.COUNT = (passesSinceFire ran : Int) ∧ s'.last = lastFiredNow calls ran := by
  induction calls using List.reverseRecOn with
  | nil =>
    intro ran s' h
    simp only [periodicCalls, Option.some.injEq, Prod.mk.injEq] at h
    obtain ⟨rfl, rfl⟩ := h
    simp [passesSinceFire, lastFiredNow, firedNows, PeriodicSite.fresh]
  | append_singleton l x ih =>
    intro ran s' h
    rw [periodicCalls_snoc x l PeriodicSite.fresh] at h
    cases hrun : periodicCalls l PeriodicSite.fresh with
    | none => simp [hrun] at h
    | some r =>
      obtain ⟨ran0, s1⟩ := r
      simp only [hrun] at h
      obtain ⟨hcount, hlast⟩ := ih ran0 s1 hrun
      have hlen := periodicCalls_length l PeriodicSite.fresh ran0 s1 hrun
      cases hstep : PERIODIC x.1 x.2 s1 with
      | none => simp [hstep] at h
      | some r2 =>
        obtain ⟨b, s2⟩ := r2
        simp only [hstep, Option.some.injEq, Prod.mk.injEq] at h
        obtain ⟨rfl, rfl⟩ := h
        obtain ⟨h1, h2, h3⟩ := PERIODIC_some_inv x.1 x.2 s1 (b, s2) hstep
        rw [PERIODIC_step x.1 x.2 s1 h1 h2 h3] at hstep
        rw [passesSinceFire_snoc, lastFiredNow, firedNows_snoc x b l ran0 hlen]
        split at hstep
        · simp only [Option.some.injEq, Prod.mk.injEq] at hstep
          obtain ⟨rfl, rfl⟩ := hstep
          simp
        · simp only [Option.some.injEq, Prod.mk.injEq] at hstep
          obtain ⟨rfl, rfl⟩ := hstep
          simp only [Bool.false_eq_true, if_false, List.append_nil, hcount]
          refine ⟨by push_cast; rfl, ?_⟩
          rw [hlast, lastFiredNow]

/-! ## Claims about `PERIODIC` -/

/-- C3, as stated, fails: with threshold 10 and cycle-counter reading 5 the
first pass of a fresh `PERIODIC` call site skips the block. -/
theorem C3_counterexample :
    PERIODIC 10 5 PeriodicSite.fresh = some (false, ⟨0, some 10, 1⟩) := by
  decide

/-- C3, amended: for every threshold and every cycle-counter reading, the
first pass of a fresh `PERIODIC` / `START_PERIODIC` call site is defined and
executes the wrapped block exactly when the reading, converted to `int64_t`,
is strictly greater than the threshold; it then records the reading in `last`
and otherwise leaves `last = 0` and counts the pass. -/
theorem C3_periodic_first_call (thr : Int) (tsc : Nat) :
    PERIODIC thr tsc PeriodicSite.fresh
      = some (decide (thr < toInt64 tsc),
          if thr < toInt64 tsc then ⟨toInt64 tsc, some thr, 0⟩ else ⟨0, some thr, 1⟩) :=
  PERIODIC_fresh thr tsc

/-- C4: take a fresh `PERIODIC` call site whose threshold `c` (fixed by the
first pass) is non-negative, fed `now` values that never decrease.  In every
defined run any two passes that both execute the block have `now` values that
differ by strictly more than `c`; `now - last` never overflows, and the run is
defined as long as the `int` counter has room for its passes. -/
theorem C4_periodic_window (c : Int) (calls : List (Int × Nat))
    (hthr : ∀ x ∈ calls.head?, x.1 = c) (hc : 0 ≤ c)
    (hmono : (calls.map (fun x => toInt64 x.2)).Pairwise (· ≤ ·)) :
    (∀ ran s', periodicCalls calls PeriodicSite.fresh = some (ran, s') →
        ran.length = calls.length ∧
        (firedNows calls ran).Pairwise (fun a b => c < b - a)) ∧
      ((calls.length : Int) ≤ INT_MAX →
        ∃ ran s', periodicCalls calls PeriodicSite.fresh = some (ran, s')) := by
  have hcyc : ∀ x ∈ calls.head?, PeriodicSite.fresh.cycles.getD x.1 = c := by
    intro x hx; simpa [PeriodicSite.fresh] using hthr x hx
  refine ⟨?_, ?_⟩
  · intro ran s' hrun
    obtain ⟨hl, _, hpw⟩ :=
      periodicCalls_window_defined c hc calls PeriodicSite.fresh ran s' hcyc
        (by simp [PeriodicSite.fresh]) (Or.inl rfl) hmono hrun
    exact ⟨hl, hpw⟩
  · intro hlen
    exact periodicCalls_defined c hc calls PeriodicSite.fresh hcyc
      (by simp [PeriodicSite.fresh]) (Or.inl rfl) hmono
      (by simp [PeriodicSite.fresh]) (by simpa [PeriodicSite.fresh] using hlen)

/-- Witness of C4: threshold 10 and readings 100, 105, 111, 200; the passes at
100, 111 and 200 execute the block, and their `now` values are pairwise more
than 10 apart. -/
theorem C4_periodic_window_witness :
    periodicCalls [(10, 100), (10, 105), (10, 111), (10, 200)] PeriodicSite.fresh
        = some ([true, false, true, true], ⟨200, some 10, 0⟩) ∧
      (firedNows [(10, 100), (10, 105), (10, 111), (10, 200)]
        [true, false, true, true]).Pairwise (fun a b => 10 < b - a) :=
  ⟨by decide,
    ((C4_periodic_window 10 [(10, 100), (10, 105), (10, 111), (10, 200)]
      (by intro x hx; simp at hx; subst hx; rfl) (by decide) (by decide)).1
      [true, false, true, true] ⟨200, some 10, 0⟩ (by decide)).2⟩

/-- C13: one `PERIODIC` pass is the specified step.  With `now` the converted
reading and `cycles` the threshold in force, every defined pass returns what
`periodicSpecStep` returns on `(last, cycles, COUNT)`: state `(now, cycles, 0)`
and the block run if `now - last > cycles`, state `(last, cycles, COUNT + 1)`
and the block skipped otherwise; and the pass is defined whenever `++COUNT`
and `now - last` do not overflow. -/
theorem C13_periodic_refines_spec (thr : Int) (tsc : Nat) (s : PeriodicSite) :
    (∀ b s', PERIODIC thr tsc s = some (b, s') →
        (b, (s'.last, s'.cycles.getD thr, s'.COUNT))
            = periodicSpecStep (toInt64 tsc) (s.last, s.cycles.getD thr, s.COUNT) ∧
          s'.cycles = some (s.cycles.getD thr)) ∧
      (s.COUNT ≠ INT_MAX → INT64_MIN ≤ toInt64 tsc - s.last →
        toInt64 tsc - s.last ≤ INT64_MAX →
        PERIODIC thr tsc s
          = some ((periodicSpecStep (toInt64 tsc) (s.last, s.cycles.getD thr, s.COUNT)).1,
              ⟨(periodicSpecStep (toInt64 tsc) (s.last, s.cycles.getD thr, s.COUNT)).2.1,
                some (periodicSpecStep (toInt64 tsc) (s.last, s.cycles.getD thr, s.COUNT)).2.2.1,
                (periodicSpecStep (toInt64 tsc) (s.last, s.cycles.getD thr, s.COUNT)).2.2.2⟩)) := by
  refine ⟨?_, ?_⟩
  · intro b s' h
    obtain ⟨h1, h2, h3⟩ := PERIODIC_some_inv thr tsc s (b, s') h
    rw [PERIODIC_step thr tsc s h1 h2 h3] at h
    by_cases hf : s.cycles.getD thr < toInt64 tsc - s.last
    · rw [if_pos hf] at h
      simp only [Option.some.injEq, Prod.mk.injEq] at h
      obtain ⟨rfl, rfl⟩ := h
      simp [periodicSpecStep, hf]
    · rw [if_neg hf] at h
      simp only [Option.some.injEq, Prod.mk.injEq] at h
      obtain ⟨rfl, rfl⟩ := h
      simp [periodicSpecStep, hf]
  · intro h1 h2 h3
    rw [PERIODIC_step thr tsc s h1 h2 h3]
    by_cases hf : s.cycles.getD thr < toInt64 tsc - s.last
    · simp [periodicSpecStep, hf]
    · simp [periodicSpecStep, hf]

/-- C14: the threshold of a `PERIODIC` call site is the value `c` its
initialiser has on the first pass and never changes: the first pass stores `c`,
every later pass keeps `cycles = c` and decides by `now - last > c`, and the
run is the same whatever value the threshold expression has on later passes.
The first pass is always defined, stores `c` and decides by `now > c`; a later
pass is defined, keeps `c` and decides by it whenever `++COUNT` and
`now - last` do not overflow; and for `c ≥ 0`, `now` values that never
decrease and a run within the `int` counter, the whole run is defined and ends
with `cycles = c`. -/
theorem C14_periodic_threshold_fixed (c : Int) (t0 : Nat) (rest : List (Int × Nat)) :
    (∀ b s1, PERIODIC c t0 PeriodicSite.fresh = some (b, s1) → s1.cycles = some c) ∧
      (∀ ran s', periodicCalls ((c, t0) :: rest) PeriodicSite.fresh = some (ran, s') →
        s'.cycles = some c) ∧
      periodicCalls ((c, t0) :: rest) PeriodicSite.fresh
        = periodicCalls ((c, t0) :: rest.map (fun x => (c, x.2))) PeriodicSite.fresh ∧
      (∀ (s : PeriodicSite) (thr : Int) (tsc : Nat) (b : Bool) (s' : PeriodicSite),
        s.cycles = some c → PERIODIC thr tsc s = some (b, s') →
        s'.cycles = some c ∧ (b = true ↔ c < toInt64 tsc - s.last)) ∧
      PERIODIC c t0 PeriodicSite.fresh
        = some (decide (c < toInt64 t0),
            if c < toInt64 t0 then ⟨toInt64 t0, some c, 0⟩ else ⟨0, some c, 1⟩) ∧
      (∀ (s : PeriodicSite) (thr : Int) (tsc : Nat),
        s.cycles = some c → s.COUNT ≠ INT_MAX →
        INT64_MIN ≤ toInt64 tsc - s.last → toInt64 tsc - s.last ≤ INT64_MAX →
        PERIODIC thr tsc s
          = some (decide (c < toInt64 tsc - s.last),
              if c < toInt64 tsc - s.last then ⟨toInt64 tsc, some c, 0⟩
              else ⟨s.last, some c, s.COUNT + 1⟩)) ∧
      (0 ≤ c →
        (((c, t0) :: rest).map (fun x => toInt64 x.2)).Pairwise (· ≤ ·) →
        ((((c, t0) :: rest).length : Nat) : Int) ≤ INT_MAX →
        ∃ ran s', periodicCalls ((c, t0) :: rest) PeriodicSite.fresh = some (ran, s') ∧
          ran.length = rest.length + 1 ∧ s'.cycles = some c) := by
  have hfirst : ∀ b s1, PERIODIC c t0 PeriodicSite.fresh = some (b, s1) →
      s1.cycles = some c := by
    intro b s1 h
    have := (PERIODIC_cycles c t0 PeriodicSite.fresh b s1 h).1
    simpa [PeriodicSite.fresh] using this
  have hrun : ∀ (l : List (Int × Nat)),
      periodicCalls ((c, t0) :: l) PeriodicSite.fresh
        = match PERIODIC c t0 PeriodicSite.fresh with
          | none => none
          | some (b, s1) =>
            match periodicCalls l s1 with
            | none => none
            | some (bs, s2) => some (b :: bs, s2) := fun _ => rfl
  have hkeep : ∀ ran s', periodicCalls ((c, t0) :: rest) PeriodicSite.fresh = some (ran, s') →
      s'.cycles = some c := by
    intro ran s' h
    rw [hrun] at h
    cases hstep : PERIODIC c t0 PeriodicSite.fresh with
    | none => simp [hstep] at h
    | some r =>
      obtain ⟨b, s1⟩ := r
      simp only [hstep] at h
      cases hrest : periodicCalls rest s1 with
      | none => simp [hrest] at h
      | some r2 =>
        obtain ⟨bs, s2⟩ := r2
        simp only [hrest, Option.some.injEq, Prod.mk.injEq] at h
        rw [← h.2]
        exact (periodicCalls_cycles_fixed c rest s1 (hfirst b s1 hstep)).2 bs s2 hrest
  refine ⟨hfirst, hkeep, ?_, ?_, PERIODIC_fresh c t0, ?_, ?_⟩
  · rw [hrun, hrun]
    cases hstep : PERIODIC c t0 PeriodicSite.fresh with
    | none => rfl
    | some r =>
      obtain ⟨b, s1⟩ := r
      simp only
      rw [(periodicCalls_cycles_fixed c rest s1 (hfirst b s1 hstep)).1]
  · intro s thr tsc b s' hc h
    have := PERIODIC_cycles thr tsc s b s' h
    simpa [hc] using this
  · intro s thr tsc hc h1 h2 h3
    rw [PERIODIC_step thr tsc s h1 h2 h3, hc]
    simp only [Option.getD_some]
    split <;> simp [*]
  · intro hc0 hmono hlen
    obtain ⟨ran, s', hrun'⟩ :=
      periodicCalls_defined c hc0 ((c, t0) :: rest) PeriodicSite.fresh
        (by intro x hx; simp at hx; subst hx; rfl)
        (by simp [PeriodicSite.fresh]) (Or.inl rfl) hmono
        (by simp [PeriodicSite.fresh]) (by simpa [PeriodicSite.fresh] using hlen)
    refine ⟨ran, s', hrun', ?_, hkeep ran s' hrun'⟩
    rw [periodicCalls_length _ _ ran s' hrun', List.length_cons]

/-- Witness of C14: the first pass has threshold 10; on the later passes the
threshold expression would give 99999 and 3, yet the run is the one with
threshold 10 throughout and ends with `cycles = 10`. -/
theorem C14_periodic_threshold_fixed_witness :
    periodicCalls [(10, 100), (99999, 200), (3, 205)] PeriodicSite.fresh
        = some ([true, true, false], ⟨200, some 10, 1⟩) ∧
      periodicCalls [(10, 100), (99999, 200), (3, 205)] PeriodicSite.fresh
        = periodicCalls ((10, 100) :: [((99999 : Int), 200), (3, 205)].map (fun x => (10, x.2)))
            PeriodicSite.fresh ∧
      PERIODIC 10 100 PeriodicSite.fresh
        = some (decide ((10 : Int) < toInt64 100),
            if (10 : Int) < toInt64 100 then ⟨toInt64 100, some 10, 0⟩ else ⟨0, some 10, 1⟩) ∧
      ∃ ran s', periodicCalls [(10, 100), (99999, 200), (3, 205)] PeriodicSite.fresh
          = some (ran, s') ∧
        ran.length = [((99999 : Int), 200), (3, 205)].length + 1 ∧ s'.cycles = some 10 :=
  ⟨by decide,
    (C14_periodic_threshold_fixed 10 100 [(99999, 200), (3, 205)]).2.2.1,
    (C14_periodic_threshold_fixed 10 100 [(99999, 200), (3, 205)]).2.2.2.2.1,
    (C14_periodic_threshold_fixed 10 100 [(99999, 200), (3, 205)]).2.2.2.2.2.2
      (by decide) (by decide) (by decide)⟩

/-- C18: invariant of the reachable states of the `PERIODIC` gate.  After any
defined run of a fresh call site, `COUNT` is the number of passes made since
the most recent executing pass (all passes if none executed, 0 right after an
executing pass), `last` is the `now` of the most recent executing pass (0 if
none executed), and a further pass that skips the block leaves `last` as it
is. -/
theorem C18_periodic_invariant (calls : List (Int × Nat)) (ran : List Bool)
    (s' : PeriodicSite) (h : periodicCalls calls PeriodicSite.fresh = some (ran, s')) :
    s'.COUNT = (passesSinceFire ran : Int) ∧
      (true ∉ ran → s'.COUNT = (calls.length : Int)) ∧
      (ran.getLast? = some true → s'.COUNT = 0) ∧
      s'.last = lastFiredNow calls ran ∧
      (true ∉ ran → s'.last = 0) ∧
      (∀ thr tsc s'', PERIODIC thr tsc s' = some (false, s'') → s''.last = s'.last) := by
  obtain ⟨hcount, hlast⟩ := periodicCalls_invariant calls ran s' h
  have hlen := periodicCalls_length calls PeriodicSite.fresh ran s' h
  refine ⟨hcount, ?_, ?_, hlast, ?_, ?_⟩
  · intro hno
    rw [hcount, passesSinceFire_of_not_mem ran hno, hlen]
  · intro hl
    rw [hcount]
    have hhead : ran.reverse.head? = some true := by rw [List.head?_reverse]; exact hl
    cases hr : ran.reverse with
    | nil => rw [hr] at hhead; simp at hhead
    | cons a t =>
      rw [hr] at hhead
      simp only [List.head?_cons, Option.some.injEq] at hhead
      subst hhead
      simp [passesSinceFire, hr]
  · intro hno
    rw [hlast, lastFiredNow, firedNows_of_not_mem calls ran hno]
    rfl
  · intro thr tsc s'' hstep
    obtain ⟨h1, h2, h3⟩ := PERIODIC_some_inv thr tsc s' (false, s'') hstep
    rw [PERIODIC_step thr tsc s' h1 h2 h3] at hstep
    split at hstep
    · simp at hstep
    · simp only [Option.some.injEq, Prod.mk.injEq, true_and] at hstep
      rw [← hstep]

/-- Witness of C18: threshold 10 and readings 100, 105, 108; the first pass
executes the block, the next two skip it, leaving `COUNT = 2` and
`last = 100`. -/
theorem C18_periodic_invariant_witness :
    periodicCalls [(10, 100), (10, 105), (10, 108)] PeriodicSite.fresh
        = some ([true, false, false], ⟨100, some 10, 2⟩) ∧
      passesSinceFire [true, false, false] = 2 ∧
      lastFiredNow [(10, 100), (10, 105), (10, 108)] [true, false, false] = 100 ∧
      ((⟨100, some 10, 2⟩ : PeriodicSite).COUNT
          = (passesSinceFire [true, false, false] : Int) ∧
        (true ∉ [true, false, false] → (⟨100, some 10, 2⟩ : PeriodicSite).COUNT
          = ([((10 : Int), 100), (10, 105), (10, 108)].length : Int)) ∧
        ([true, false, false].getLast? = some true →
          (⟨100, some 10, 2⟩ : PeriodicSite).COUNT = 0) ∧
        (⟨100, some 10, 2⟩ : PeriodicSite).last
          = lastFiredNow [(10, 100), (10, 105), (10, 108)] [true, false, false] ∧
        (true ∉ [true, false, false] → (⟨100, some 10, 2⟩ : PeriodicSite).last = 0) ∧
        (∀ thr tsc s'', PERIODIC thr tsc ⟨100, some 10, 2⟩ = some (false, s'') →
          s''.last = (⟨100, some 10, 2⟩ : PeriodicSite).last)) :=
  ⟨by decide, by decide, by decide,
    C18_periodic_invariant [(10, 100), (10, 105), (10, 108)] [true, false, false]
      ⟨100, some 10, 2⟩ (by decide)⟩

/-! ## Claims about gate misconfiguration -/

/-- C9, as stated, fails: a negative interval makes neither gate fail.  A
fresh `EVERY_N` call site with interval `-3` runs the operation on its first
call, and a fresh `PERIODIC` call site with threshold `-5` or `0` runs the
block at cycle-counter reading 100. -/
theorem C9_counterexample :
    EVERY_N (-3) EveryNSite.fresh = some (true, ⟨1⟩) ∧
      PERIODIC (-5) 100 PeriodicSite.fresh = some (true, ⟨100, some (-5), 0⟩) ∧
      PERIODIC 0 100 PeriodicSite.fresh = some (true, ⟨100, some 0, 0⟩) := by
  decide

/-- C9, amended: the gates do not check their interval.  With interval zero
`EVERY_N` takes a remainder by zero and has no defined result; with a negative
interval the first call of a fresh `EVERY_N` call site runs the operation; a
fresh `PERIODIC` call site with a zero or negative threshold does not fail: it
runs the block exactly when the reading exceeds the threshold, so on every
positive reading. -/
theorem C9_gates_unchecked_interval (N thr : Int) (tsc : Nat) (hN : N < 0) (hthr : thr ≤ 0) :
    (∀ s, EVERY_N 0 s = none) ∧
      EVERY_N N EveryNSite.fresh = some (true, ⟨1⟩) ∧
      (∃ s', PERIODIC thr tsc PeriodicSite.fresh = some (decide (thr < toInt64 tsc), s')) ∧
      (0 < toInt64 tsc →
        PERIODIC thr tsc PeriodicSite.fresh = some (true, ⟨toInt64 tsc, some thr, 0⟩)) := by
  refine ⟨fun s => by simp [EVERY_N], ?_, ⟨_, PERIODIC_fresh thr tsc⟩, ?_⟩
  · have h0 : N ≠ 0 := by omega
    simp [EVERY_N, EveryNSite.fresh, h0, INT_MIN, INT_MAX]
  · intro hpos
    have hlt : thr < toInt64 tsc := by omega
    rw [PERIODIC_fresh thr tsc]
    simp [hlt]

/-- Witness of C9 (amended): interval `-2`, threshold `-7`, reading 3. -/
theorem C9_gates_unchecked_interval_witness :
    (-2 : Int) < 0 ∧ (-7 : Int) ≤ 0 ∧
      ((∀ s, EVERY_N 0 s = none) ∧
        EVERY_N (-2) EveryNSite.fresh = some (true, ⟨1⟩) ∧
        (∃ s', PERIODIC (-7) 3 PeriodicSite.fresh
          = some (decide ((-7 : Int) < toInt64 3), s')) ∧
        (0 < toInt64 3 →
          PERIODIC (-7) 3 PeriodicSite.fresh = some (true, ⟨toInt64 3, some (-7), 0⟩))) :=
  ⟨by decide, by decide, C9_gates_unchecked_interval (-2) (-7) 3 (by decide) (by decide)⟩

/-! ## Claims about `TimerBlock` -/

/-- C5: with doubles as exact numbers, running any number of `TimerBlock`
scopes one after another on one accumulator, scope `i` constructed at clock
reading `s_i` and destroyed at `e_i`, leaves the accumulator at its initial
value plus the sum of the `e_i - s_i`, however each scope is left. -/
theorem C5_timerblock_sum (scopes : List (ℚ × ℚ × ScopeExit)) (t : ℚ) :
    runScopes scopes t = t + (scopes.map (fun x => x.2.1 - x.1)).sum := by
  induction scopes generalizing t with
  | nil => simp [runScopes]
  | cons x rest ih =>
    obtain ⟨s, e, ex⟩ := x
    simp only [runScopes, timedScope, TimerBlock.construct, TimerBlock.destroy, ih,
      List.map_cons, List.sum_cons]
    ring

/-- C6: a `TimerBlock` scope changes the accumulator exactly once.
Construction leaves the accumulator as it is and records `start_ = Now()`;
destruction sets it to its value at scope exit plus `Now() - start_`; so the
whole scope yields the value the body left plus `endNow - startNow`. -/
theorem C6_timerblock_single_update (t startNow endNow : ℚ) (body : ℚ → ScopeExit × ℚ) :
    (TimerBlock.construct t startNow).2 = t ∧
      (TimerBlock.construct t startNow).1.start_ = startNow ∧
      (∀ (tb : TimerBlock) (t1 : ℚ),
        TimerBlock.destroy tb t1 endNow = t1 + (endNow - tb.start_)) ∧
      timedScope startNow endNow body t = ((body t).1, (body t).2 + (endNow - startNow)) := by
  refine ⟨rfl, rfl, fun _ _ => rfl, ?_⟩
  simp [timedScope, TimerBlock.construct, TimerBlock.destroy]

/-! ## Claims about the logging front end -/

/-- C7: `logAtLevel` at level `L` under current level `C` writes its record
exactly when `L ≥ C`, and when `L < C` it has no effect at all. -/
theorem C7_logAtLevel_filter (C L : LogLevel) (render : String → List String → String)
    (now : ℚ) (hostname file : String) (line : Int) (fmt : String) (args : List String)
    (p : Process) :
    ((logAtLevel C render now hostname L file line fmt args p).output
        = p.output ++ [⟨L, now, hostname, file, line, render fmt args⟩] ↔ C.val ≤ L.val) ∧
      ((logAtLevel C render now hostname L file line fmt args p).output = p.output
        ↔ L.val < C.val) ∧
      (L.val < C.val → logAtLevel C render now hostname L file line fmt args p = p) := by
  by_cases h : L.val < C.val
  · have hn : ¬ C.val ≤ L.val := by omega
    simp [logAtLevel, h, hn]
  · have hn : C.val ≤ L.val := by omega
    simp [logAtLevel, h, hn]

/-- C8: `Log_Assert` and `Log_PAssert` call `logAtLevel` (once, at level
`kLogFatal`) exactly when `expr` is false; when `expr` is true they make no
log call and do not evaluate the message arguments, so the caller's state is
the one `expr` left. -/
theorem C8_assert_calls {σ : Type} (StringPrintf : String → List String → String)
    (strerrorErrno : σ → String) (expr : σ → Bool × σ) (file : String) (line : Int)
    (fmt : String) (args : σ → List String × σ) (s : σ) :
    ((expr s).1 = false ↔
        ∃ c, (Log_Assert expr file line fmt args s).1 = [c] ∧ c.level = LogLevel.kLogFatal) ∧
      ((expr s).1 = false ↔
        ∃ c, (Log_PAssert StringPrintf strerrorErrno expr file line fmt args s).1 = [c] ∧
          c.level = LogLevel.kLogFatal) ∧
      ((expr s).1 = true →
        Log_Assert expr file line fmt args s = ([], (expr s).2) ∧
        Log_PAssert StringPrintf strerrorErrno expr file line fmt args s = ([], (expr s).2)) := by
  cases h : (expr s).1 <;> simp [Log_Assert, Log_PAssert, Log_Fatal, h]

/-- C12: the numeric values of `LogLevel` are 0 to 4 in the order
`kLogDebug < kLogInfo < kLogWarn < kLogError < kLogFatal`; they are pairwise
distinct and any two levels are comparable, so `kLogFatal` is at least, and
`kLogDebug` at most, every current level. -/
theorem C12_loglevel_order :
    (LogLevel.kLogDebug.val = 0 ∧ LogLevel.kLogInfo.val = 1 ∧ LogLevel.kLogWarn.val = 2 ∧
        LogLevel.kLogError.val = 3 ∧ LogLevel.kLogFatal.val = 4) ∧
      (LogLevel.kLogDebug.val < LogLevel.kLogInfo.val ∧
        LogLevel.kLogInfo.val < LogLevel.kLogWarn.val ∧
        LogLevel.kLogWarn.val < LogLevel.kLogError.val ∧
        LogLevel.kLogError.val < LogLevel.kLogFatal.val) ∧
      (∀ a b : LogLevel, a.val = b.val → a = b) ∧
      (∀ a b : LogLevel, a.val < b.val ∨ a = b ∨ b.val < a.val) ∧
      (∀ C : LogLevel, C.val ≤ LogLevel.kLogFatal.val) ∧
      (∀ C : LogLevel, LogLevel.kLogDebug.val ≤ C.val) := by
  refine ⟨by decide, by decide, ?_, ?_, ?_, ?_⟩
  · intro a b; cases a <;> cases b <;> simp [LogLevel.val]
  · intro a b; cases a <;> cases b <;> simp [LogLevel.val]
  · intro C; cases C <;> simp [LogLevel.val]
  · intro C; cases C <;> simp [LogLevel.val]

/-- C15: `Log_Perror` makes exactly one `logAtLevel` call, at level `kLogWarn`
and not `kLogFatal`, with format `"%s :: (System error: %s)"`, the rendered
user message as first argument and `strerror(errno)` as second.  A failing
`Log_PAssert` makes the call with the same format and arguments at level
`kLogFatal`, and a failing `Log_Assert` passes the caller's format and
arguments with nothing added. -/
theorem C15_perror_format {σ : Type} (StringPrintf : String → List String → String)
    (strerrorErrno : σ → String) (expr : σ → Bool × σ) (file : String) (line : Int)
    (fmt : String) (args : σ → List String × σ) (s : σ) :
    (Log_Perror StringPrintf strerrorErrno file line fmt args s).1
        = [⟨LogLevel.kLogWarn, file, line, "%s :: (System error: %s)",
            [StringPrintf fmt (args s).1, strerrorErrno (args s).2]⟩] ∧
      (∀ c ∈ (Log_Perror StringPrintf strerrorErrno file line fmt args s).1,
        c.level ≠ LogLevel.kLogFatal) ∧
      ((expr s).1 = false →
        (Log_PAssert StringPrintf strerrorErrno expr file line fmt args s).1
            = [⟨LogLevel.kLogFatal, file, line, "%s :: (System error: %s)",
                [StringPrintf fmt (args (expr s).2).1, strerrorErrno (args (expr s).2).2]⟩] ∧
          (Log_Assert expr file line fmt args s).1
            = [⟨LogLevel.kLogFatal, file, line, fmt, (args (expr s).2).1⟩]) := by
  refine ⟨rfl, ?_, ?_⟩
  · intro c hc
    simp only [Log_Perror, Log_Warn, List.mem_singleton] at hc
    rw [hc]
    simp
  · intro he
    simp [Log_PAssert, Log_Assert, Log_Fatal, he]

end Logging
